import Mathlib

/-!
Verification of the core walk-and-aggregate engine of the `fss` disk-usage
tool (src/walk.rs, src/groups.rs), shallowly embedded in Lean.

Modelling conventions:
* A filesystem path (Rust `PathBuf`) is a list of normal name components
  (`List String`); the file name is the last component.
* `u64` byte counts are modelled as `Nat` (the aggregator only adds sizes,
  and overflow of 64-bit byte totals is out of scope).
* The opaque platform identity (`unique_id.rs`, not in src/) is modelled
  from the spec as an optional comparable value, `Option Nat`.
* The size resolver (`filesize.rs`, not in src/) is modelled from the spec
  as the byte count carried by each filesystem node: no claim distinguishes
  the apparent-size and disk-usage semantics, both are functions of the
  entry's metadata.
* Rust `HashMap<String, u64>` is modelled as an association list with
  unique keys (`mapAdd` mirrors `entry().and_modify().or_insert()`), and
  `HashSet` membership via `List.contains`.
-/

/-- The ASCII uppercase → lowercase letter table. -/
def lowerPairs : List (Char × Char) :=
  [('A', 'a'), ('B', 'b'), ('C', 'c'), ('D', 'd'), ('E', 'e'), ('F', 'f'),
   ('G', 'g'), ('H', 'h'), ('I', 'i'), ('J', 'j'), ('K', 'k'), ('L', 'l'),
   ('M', 'm'), ('N', 'n'), ('O', 'o'), ('P', 'p'), ('Q', 'q'), ('R', 'r'),
   ('S', 's'), ('T', 't'), ('U', 'u'), ('V', 'v'), ('W', 'w'), ('X', 'x'),
   ('Y', 'y'), ('Z', 'z')]

/-- ASCII lowercasing of a single character, as Rust `to_ascii_lowercase`:
exactly the letters A..Z are mapped to a..z, every other character is
untouched. -/
def asciiLowerChar (c : Char) : Char :=
  (lowerPairs.lookup c).getD c

/-- Rust `str::to_ascii_lowercase`. -/
def toAsciiLowercase (s : String) : String :=
  String.mk (s.data.map asciiLowerChar)

/-- The characters after the last `'.'` of `l`, or `none` when `l` has no
dot.  Helper for Rust `Path::extension`. -/
def afterLastDot : List Char → Option (List Char)
  | [] => none
  | c :: rest =>
    match afterLastDot rest with
    | some e => some e
    | none => if c = '.' then some rest else none

/-- Rust `Path::extension` applied to a file name: `none` when the name is
empty, has no dot, or its only dot is the leading character (hidden files
like `.gitignore`); otherwise the portion after the last dot. -/
def extOfName (s : String) : Option String :=
  match s.data with
  | [] => none
  | _ :: rest => (afterLastDot rest).map String.mk

/-- `get_filename` (src/walk.rs:80): `path.file_name().unwrap_or_default()`,
the last path component or `""`. -/
def get_filename (p : List String) : String :=
  p.getLast?.getD ""

/-- `get_parent_directory` (src/walk.rs:89): the name of the immediate
parent directory, `""` when there is none. -/
def get_parent_directory (p : List String) : String :=
  get_filename p.dropLast

/-- `get_ext` (src/walk.rs:71): the path's extension (of its file name),
`""` when absent, ASCII-lowercased. -/
def get_ext (p : List String) : String :=
  toAsciiLowercase ((extOfName (get_filename p)).getD "")

/-- `FileType` (src/groups.rs:24). -/
inductive FileType where
  | Image | Video | Document | Executable | Archive | Audio | Code
  | GenomicData | Other
  deriving DecidableEq, Repr

/-- The `Display` (= `Debug`) rendering of a `FileType` (src/groups.rs:221). -/
def FileType.str : FileType → String
  | .Image => "Image"
  | .Video => "Video"
  | .Document => "Document"
  | .Executable => "Executable"
  | .Archive => "Archive"
  | .Audio => "Audio"
  | .Code => "Code"
  | .GenomicData => "GenomicData"
  | .Other => "Other"

/-- The `Image` insertions of `FILETYPE_MAP` (src/groups.rs:40). -/
def imageExts : List (String × FileType) :=
  [("jpg", .Image), ("jpeg", .Image), ("jpegxl", .Image), ("png", .Image),
   ("tiff", .Image), ("raw", .Image), ("nef", .Image), ("webp", .Image),
   ("psd", .Image), ("heic", .Image), ("gif", .Image), ("avif", .Image),
   ("dng", .Image), ("svg", .Image), ("bmp", .Image)]

/-- The `Video` insertions of `FILETYPE_MAP` (src/groups.rs:56). -/
def videoExts : List (String × FileType) :=
  [("mp4", .Video), ("mkv", .Video), ("avi", .Video), ("webm", .Video),
   ("flv", .Video), ("f4v", .Video), ("gifv", .Video), ("mpeg", .Video),
   ("mpg", .Video), ("mov", .Video), ("wmv", .Video), ("3gp", .Video),
   ("aaf", .Video), ("avchd", .Video)]

/-- The `Document` insertions of `FILETYPE_MAP` (src/groups.rs:71). -/
def documentExts : List (String × FileType) :=
  [("pdf", .Document), ("txt", .Document), ("docx", .Document),
   ("doc", .Document), ("xlsx", .Document), ("xls", .Document),
   ("csv", .Document), ("tsv", .Document), ("md", .Document),
   ("odt", .Document), ("fodt", .Document), ("pages", .Document),
   ("rtf", .Document), ("tex", .Document), ("latex", .Document),
   ("epub", .Document), ("kpub", .Document), ("ppt", .Document),
   ("pptx", .Document), ("otp", .Document), ("odp", .Document),
   ("pot", .Document), ("pps", .Document), ("bib", .Document),
   ("log", .Document), ("tmp", .Document), ("temp", .Document)]

/-- The first half of the `Code` insertions of `FILETYPE_MAP`
(src/groups.rs:99). -/
def codeExts1 : List (String × FileType) :=
  [("py", .Code), ("pyc", .Code), ("pyo", .Code), ("xml", .Code),
   ("html", .Code), ("htm", .Code), ("htmx", .Code), ("xhtml", .Code),
   ("xht", .Code), ("css", .Code), ("js", .Code), ("jsx", .Code),
   ("json", .Code), ("yaml", .Code), ("toml", .Code), ("ts", .Code),
   ("c", .Code), ("cpp", .Code), ("h", .Code), ("rs", .Code),
   ("r", .Code), ("go", .Code), ("zig", .Code), ("awk", .Code)]

/-- The second half of the `Code` insertions of `FILETYPE_MAP`
(src/groups.rs:123). -/
def codeExts2 : List (String × FileType) :=
  [("cs", .Code), ("csproj", .Code), ("ici", .Code), ("ipynb", .Code),
   ("kt", .Code), ("lua", .Code), ("php", .Code), ("pl", .Code),
   ("pm", .Code), ("ps1", .Code), ("sh", .Code), ("fish", .Code),
   ("asm", .Code), ("d", .Code), ("vim", .Code), ("java", .Code),
   ("lisp", .Code), ("php3", .Code), ("php4", .Code), ("php5", .Code),
   ("phps", .Code), ("vb", .Code), ("sql", .Code)]

/-- The `Executable` and `Audio` insertions of `FILETYPE_MAP`
(src/groups.rs:147). -/
def execAudioExts : List (String × FileType) :=
  [("exe", .Executable), ("apk", .Executable), ("o", .Executable),
   ("so", .Executable), ("app", .Executable), ("dll", .Executable),
   ("elf", .Executable), ("jar", .Executable), ("lib", .Executable),
   ("mp3", .Audio), ("aiff", .Audio), ("aif", .Audio), ("aifc", .Audio),
   ("wav", .Audio), ("flac", .Audio), ("wma", .Audio), ("dts", .Audio),
   ("ac3", .Audio), ("aac", .Audio), ("ots", .Audio), ("ogg", .Audio)]

/-- The `Archive` insertions of `FILETYPE_MAP` (src/groups.rs:170). -/
def archiveExts : List (String × FileType) :=
  [("gz", .Archive), ("gzip", .Archive), ("zst", .Archive),
   ("zstd", .Archive), ("zip", .Archive), ("7z", .Archive),
   ("7zip", .Archive), ("rar", .Archive), ("tar", .Archive),
   ("bin", .Archive), ("dat", .Archive), ("bz2", .Archive),
   ("pak", .Archive), ("par", .Archive), ("pax", .Archive),
   ("sqlite", .Archive), ("sq", .Archive), ("vbox", .Archive)]

/-- The `GenomicData` insertions of `FILETYPE_MAP` (src/groups.rs:189). -/
def genomicExts : List (String × FileType) :=
  [("bam", .GenomicData), ("bai", .GenomicData), ("sam", .GenomicData),
   ("bed", .GenomicData), ("gtf", .GenomicData), ("gtf2", .GenomicData),
   ("gtf3", .GenomicData), ("gff", .GenomicData), ("gff2", .GenomicData),
   ("gff3", .GenomicData), ("bedpe", .GenomicData), ("cram", .GenomicData),
   ("sra", .GenomicData), ("fastq", .GenomicData), ("fasta", .GenomicData),
   ("fa", .GenomicData), ("fq", .GenomicData), ("fasterq", .GenomicData),
   ("embl", .GenomicData), ("genbank", .GenomicData), ("pdb", .GenomicData),
   ("ncbi", .GenomicData), ("maf", .GenomicData), ("nwk", .GenomicData),
   ("phd", .GenomicData), ("vcf", .GenomicData), ("pod5", .GenomicData)]

/-- `FILETYPE_MAP` (src/groups.rs:36): the static extension → category
table, transcribed insertion by insertion in source order (the table is
split into blocks only because very long list literals elaborate slowly;
`++` keeps the same entries in the same order, and no key is duplicated,
so first-match lookup agrees with the hash map). -/
def FILETYPE_MAP : List (String × FileType) :=
  imageExts ++ videoExts ++ documentExts ++ codeExts1 ++ codeExts2 ++
    execAudioExts ++ archiveExts ++ genomicExts

/-- `FileType::get_filetype` (src/groups.rs:243): look the extension up in
the static table, defaulting to `Other`. -/
def FileType.get_filetype (ext : String) : FileType :=
  (FILETYPE_MAP.lookup ext).getD .Other

/-- `GroupBy` (src/cli.rs:92, re-exported to src/walk.rs). -/
inductive GroupBy where
  | Extension | Type | FileName | Directory
  deriving DecidableEq, Repr

/-- The group key the aggregator accumulates a counted path under
(the four `match group_by` arms of src/walk.rs:142). -/
def groupKey (g : GroupBy) (p : List String) : String :=
  match g with
  | .Type => (FileType.get_filetype (get_ext p)).str
  | .Extension => get_ext p
  | .FileName => get_filename p
  | .Directory => get_parent_directory p

/-- `walk::Error` (src/walk.rs:19). -/
inductive WalkError where
  | noMetadataForPath (p : List String)
  | couldNotReadDir (p : List String)
  deriving DecidableEq, Repr

/-- `walk::Message` (src/walk.rs:25). -/
inductive Message where
  | sizeEntry (uid : Option Nat) (p : List String) (size : Nat)
  | error (e : WalkError)
  deriving DecidableEq, Repr

/-- The aggregator's state (the four locals of the receiver thread,
src/walk.rs:126). -/
structure AggState where
  total : Nat
  ids : List Nat
  sizes : List (String × Nat)
  errors : List WalkError
  deriving DecidableEq, Repr

/-- `sizes.entry(key).and_modify(|s| *s += size).or_insert(size)`
(src/walk.rs:145): add `v` to the entry at `k`, inserting it at the end
when absent. -/
def mapAdd (m : List (String × Nat)) (k : String) (v : Nat) :
    List (String × Nat) :=
  match m with
  | [] => [(k, v)]
  | (k', v') :: rest =>
    if k' = k then (k', v' + v) :: rest else (k', v') :: mapAdd rest k v

/-- One iteration of the aggregator's receive loop (src/walk.rs:131-173). -/
def aggStep (g : GroupBy) (st : AggState) (msg : Message) : AggState :=
  match msg with
  | .sizeEntry uid p size =>
    match uid with
    | some i =>
      if st.ids.contains i then st
      else { st with
               total := st.total + size
               ids := i :: st.ids
               sizes := mapAdd st.sizes (groupKey g p) size }
    | none =>
      { st with
          total := st.total + size
          sizes := mapAdd st.sizes (groupKey g p) size }
  | .error e => { st with errors := st.errors ++ [e] }

/-- The aggregator's initial state (src/walk.rs:126-129). -/
def initAgg : AggState := ⟨0, [], [], []⟩

/-- The receiver thread of `Walk::run` (src/walk.rs:125-176): drain the
channel, in arrival order, starting from the empty state. -/
def aggregate (g : GroupBy) (msgs : List Message) : AggState :=
  msgs.foldl (aggStep g) initAgg

example : get_ext [".", "FILE.TXT"] = "txt" := by decide
example : get_ext ["a", ".gitignore"] = "" := by decide
example : get_ext ["a", "b.tar.GZ"] = "gz" := by decide
example : get_filename ["a", "b.txt"] = "b.txt" := by decide
example : get_parent_directory ["a", "b", "c.txt"] = "b" := by decide
example : FileType.get_filetype "txt" = .Document := by decide
example : FileType.get_filetype "" = .Other := by decide
example :
    (aggregate .Extension
      [.sizeEntry (some 1) ["r", "a.txt"] 100,
       .sizeEntry (some 1) ["r", "b.jpg"] 100]).total = 100 := by decide

/-!
The walker (src/walk.rs:30-68).  A filesystem snapshot is modelled as an
inductive tree: what each `Path::symlink_metadata` / `fs::read_dir` call
would return for the entries reachable from the roots.
* `missing`: `symlink_metadata` fails (permission denied, broken entry).
* `file`: a non-directory, non-symlink entry with its resolved byte size
  and optional platform identity.
* `symlink`: a symbolic link; `symlink_metadata` reports the link itself
  (never a directory), and the link's target subtree is carried so that we
  can state that the walker ignores it.
* `dir`: a directory; its listing is `none` when `fs::read_dir` fails, and
  otherwise a sequence of child results, where `consErr` is a child whose
  `read_dir` iterator item is an `Err` (skipped by `.flatten()`).
The parallel fan-out is modelled by one canonical left-to-right
linearization of the emitted messages; arrival-order nondeterminism is
quantified over separately, as permutations of that list.
-/

mutual

inductive Fs where
  | missing
  | file (size : Nat) (uid : Option Nat)
  | symlink (size : Nat) (uid : Option Nat) (target : Fs)
  | dir (size : Nat) (uid : Option Nat) (listing : Option Listing)

inductive Listing where
  | nil
  | consOk (name : String) (child : Fs) (rest : Listing)
  | consErr (rest : Listing)

end

/-- The metadata snapshot the walker reads from an entry: directory flag,
resolved byte size, optional identity (spec §3 "Entry"). -/
structure Meta where
  is_dir : Bool
  size : Nat
  uid : Option Nat
  deriving DecidableEq, Repr

/-- `Path::symlink_metadata` combined with `generate_unique_id` and
`filesize_type.size` (src/walk.rs:32-35): metadata is retrieved without
following symbolic links, so a symlink is reported with its own size and
identity and is never a directory. -/
def lstat : Fs → Option Meta
  | .missing => none
  | .file sz uid => some ⟨false, sz, uid⟩
  | .symlink sz uid _ => some ⟨false, sz, uid⟩
  | .dir sz uid _ => some ⟨true, sz, uid⟩

mutual

/-- `walk` (src/walk.rs:30) on a single entry at path `p`: metadata
failure emits one `NoMetadataForPath` error; a directory emits a
`CouldNotReadDir` error if its listing fails and otherwise only walks its
children; any other entry emits one `SizeEntry`. -/
def walkFs (p : List String) : Fs → List Message
  | .missing => [.error (.noMetadataForPath p)]
  | .file sz uid => [.sizeEntry uid p sz]
  | .symlink sz uid _ => [.sizeEntry uid p sz]
  | .dir _ _ (some l) => walkListing p l
  | .dir _ _ none => [.error (.couldNotReadDir p)]

/-- `walk` recursing over the children collected from a directory listing
(src/walk.rs:40-54): failed child reads are skipped by `.flatten()`. -/
def walkListing (p : List String) : Listing → List Message
  | .nil => []
  | .consOk n c rest => walkFs (p ++ [n]) c ++ walkListing p rest
  | .consErr rest => walkListing p rest

end

/-- The whole walk over the root list (src/walk.rs:182): each root is
walked like any other entry. -/
def walkRoots : List (List String × Fs) → List Message
  | [] => []
  | r :: rest => walkFs r.1 r.2 ++ walkRoots rest

/-- Concatenation of directory listings. -/
def Listing.append : Listing → Listing → Listing
  | .nil, l => l
  | .consOk n c rest, l => .consOk n c (rest.append l)
  | .consErr rest, l => .consErr (rest.append l)

mutual

/-- Remove every failed child read (`consErr`) everywhere in a tree. -/
def Fs.scrub : Fs → Fs
  | .missing => .missing
  | .file sz uid => .file sz uid
  | .symlink sz uid t => .symlink sz uid t.scrub
  | .dir sz uid none => .dir sz uid none
  | .dir sz uid (some l) => .dir sz uid (some l.scrub)

/-- Remove every failed child read (`consErr`) from a listing and,
recursively, from its children. -/
def Listing.scrub : Listing → Listing
  | .nil => .nil
  | .consOk n c rest => .consOk n c.scrub rest.scrub
  | .consErr rest => rest.scrub

end

/-- The path a message is about. -/
def msgPath : Message → List String
  | .sizeEntry _ p _ => p
  | .error (.noMetadataForPath p) => p
  | .error (.couldNotReadDir p) => p

example :
    walkFs ["r"]
      (.dir 4096 (some 9) (some (.consOk "a.txt" (.file 100 (some 1))
        (.consErr (.consOk "sub" (.dir 4096 (some 2) none) .nil))))) =
    [.sizeEntry (some 1) ["r", "a.txt"] 100,
     .error (.couldNotReadDir ["r", "sub"])] := by decide

example :
    walkFs ["r", "link"] (.symlink 12 (some 3)
      (.dir 4096 (some 4) (some (.consOk "x" (.file 5 none) .nil)))) =
    [.sizeEntry (some 3) ["r", "link"] 12] := by decide

/-!  Observation helpers for the aggregation state. -/

/-- Total lookup in the group map, `0` for an absent key (the value an
outside reader associates to a key of the returned `HashMap`). -/
def lookupD (m : List (String × Nat)) (k : String) : Nat :=
  match m with
  | [] => 0
  | (k', v) :: rest => if k' = k then v else lookupD rest k

/-- Sum of all values of the group map. -/
def sumValues : List (String × Nat) → Nat
  | [] => 0
  | (_, v) :: rest => v + sumValues rest

/-- Sum of the sizes of all `SizeEntry` messages of a list. -/
def sumSizes : List Message → Nat
  | [] => 0
  | .sizeEntry _ _ s :: rest => s + sumSizes rest
  | .error _ :: rest => sumSizes rest

/-- Sum of the sizes of the `SizeEntry` messages whose group key is `k`. -/
def sumSizesAt (g : GroupBy) (k : String) : List Message → Nat
  | [] => 0
  | .sizeEntry _ p s :: rest =>
    (if groupKey g p = k then s else 0) + sumSizesAt g k rest
  | .error _ :: rest => sumSizesAt g k rest

/-- The subsequence of `SizeEntry` messages the aggregator actually counts
when its dedup set already holds `seen`: an entry with an identity already
seen is dropped, a fresh identity is recorded, an absent identity is always
kept; errors are not entries. -/
def dedupEntries (seen : List Nat) : List Message → List Message
  | [] => []
  | .sizeEntry none p s :: rest => .sizeEntry none p s :: dedupEntries seen rest
  | .sizeEntry (some i) p s :: rest =>
    if seen.contains i then dedupEntries seen rest
    else .sizeEntry (some i) p s :: dedupEntries (i :: seen) rest
  | .error _ :: rest => dedupEntries seen rest

/-- How many `SizeEntry` messages of the list carry identity `i`. -/
def countId (i : Nat) : List Message → Nat
  | [] => 0
  | .sizeEntry (some j) _ _ :: rest =>
    (if j = i then 1 else 0) + countId i rest
  | .sizeEntry none _ _ :: rest => countId i rest
  | .error _ :: rest => countId i rest

/-- The error payload of a message, if it is one. -/
def errOf : Message → Option WalkError
  | .sizeEntry _ _ _ => none
  | .error e => some e

/-- Whether a message is a `SizeEntry`. -/
def isEntry : Message → Bool
  | .sizeEntry _ _ _ => true
  | .error _ => false

/-!  Basic lemmas about the group map and the aggregation step. -/

theorem lookupD_mapAdd (m : List (String × Nat)) (k0 k : String) (v : Nat) :
    lookupD (mapAdd m k0 v) k =
      lookupD m k + (if k0 = k then v else 0) := by
  induction m with
  | nil => by_cases h : k0 = k <;> simp [mapAdd, lookupD, h]
  | cons kv rest ih =>
    obtain ⟨k', v'⟩ := kv
    by_cases h1 : k' = k0
    · subst h1
      by_cases h2 : k' = k
      · simp [mapAdd, lookupD, h2]
      · simp [mapAdd, lookupD, h2]
    · by_cases h2 : k' = k
      · subst h2
        have : ¬ (k0 = k') := fun h => h1 h.symm
        simp [mapAdd, lookupD, h1, this]
      · simp [mapAdd, lookupD, h1, h2, ih]

theorem sumValues_mapAdd (m : List (String × Nat)) (k : String) (v : Nat) :
    sumValues (mapAdd m k v) = sumValues m + v := by
  induction m with
  | nil => simp [mapAdd, sumValues]
  | cons kv rest ih =>
    obtain ⟨k', v'⟩ := kv
    by_cases h : k' = k
    · simp [mapAdd, sumValues, h, ih]
      omega
    · simp [mapAdd, sumValues, h, ih]
      omega

/-- The error branch of the aggregator loop touches nothing but the error
list (src/walk.rs:170-172). -/
theorem aggStep_error (g : GroupBy) (st : AggState) (e : WalkError) :
    aggStep g st (.error e) = { st with errors := st.errors ++ [e] } := rfl

theorem aggStep_entry_stale (g : GroupBy) (st : AggState) (i : Nat)
    (p : List String) (s : Nat) (h : st.ids.contains i) :
    aggStep g st (.sizeEntry (some i) p s) = st := by
  simp only [aggStep]
  rw [if_pos h]

theorem aggStep_entry_fresh (g : GroupBy) (st : AggState) (i : Nat)
    (p : List String) (s : Nat) (h : ¬ st.ids.contains i) :
    aggStep g st (.sizeEntry (some i) p s) =
      { st with
          total := st.total + s
          ids := i :: st.ids
          sizes := mapAdd st.sizes (groupKey g p) s } := by
  simp only [aggStep]
  rw [if_neg h]

theorem aggStep_entry_noId (g : GroupBy) (st : AggState)
    (p : List String) (s : Nat) :
    aggStep g st (.sizeEntry none p s) =
      { st with
          total := st.total + s
          sizes := mapAdd st.sizes (groupKey g p) s } := rfl

/-- Running the aggregator loop from any state adds to the total exactly
the sizes of the entries that survive dedup against the current set. -/
theorem agg_total_eq (g : GroupBy) (msgs : List Message) :
    ∀ st : AggState,
      (msgs.foldl (aggStep g) st).total =
        st.total + sumSizes (dedupEntries st.ids msgs) := by
  induction msgs with
  | nil => intro st; simp [dedupEntries, sumSizes]
  | cons m rest ih =>
    intro st
    cases m with
    | error e =>
      rw [List.foldl_cons, aggStep_error, ih]
      simp [dedupEntries]
    | sizeEntry uid p s =>
      cases uid with
      | none =>
        rw [List.foldl_cons, aggStep_entry_noId, ih]
        simp [dedupEntries, sumSizes]
        omega
      | some i =>
        by_cases h : i ∈ st.ids
        · rw [List.foldl_cons, aggStep_entry_stale g st i p s (by simpa using h), ih]
          simp [dedupEntries, h]
        · rw [List.foldl_cons,
            aggStep_entry_fresh g st i p s (by simpa using h), ih]
          simp [dedupEntries, h, sumSizes]
          omega

/-- Running the aggregator loop from any state adds to each group-map key
exactly the sizes of the surviving entries whose group key it is. -/
theorem agg_lookupD_eq (g : GroupBy) (k : String) (msgs : List Message) :
    ∀ st : AggState,
      lookupD (msgs.foldl (aggStep g) st).sizes k =
        lookupD st.sizes k + sumSizesAt g k (dedupEntries st.ids msgs) := by
  induction msgs with
  | nil => intro st; simp [dedupEntries, sumSizesAt]
  | cons m rest ih =>
    intro st
    cases m with
    | error e =>
      rw [List.foldl_cons, aggStep_error, ih]
      simp [dedupEntries]
    | sizeEntry uid p s =>
      cases uid with
      | none =>
        rw [List.foldl_cons, aggStep_entry_noId, ih]
        simp [dedupEntries, sumSizesAt, lookupD_mapAdd]
        omega
      | some i =>
        by_cases h : i ∈ st.ids
        · rw [List.foldl_cons, aggStep_entry_stale g st i p s (by simpa using h), ih]
          simp [dedupEntries, h]
        · rw [List.foldl_cons,
            aggStep_entry_fresh g st i p s (by simpa using h), ih]
          simp [dedupEntries, h, sumSizesAt, lookupD_mapAdd]
          omega

/-- Among the entries surviving dedup, an identity occurs exactly once if
it occurred at all (and was not blocked by the starting set). -/
theorem countId_dedupEntries (i : Nat) (msgs : List Message) :
    ∀ seen : List Nat,
      countId i (dedupEntries seen msgs) =
        if seen.contains i then 0 else min 1 (countId i msgs) := by
  induction msgs with
  | nil => intro seen; simp [dedupEntries, countId]
  | cons m rest ih =>
    intro seen
    cases m with
    | error e => simp [dedupEntries, countId, ih]
    | sizeEntry uid p s =>
      cases uid with
      | none => simp [dedupEntries, countId, ih]
      | some j =>
        by_cases hj : j ∈ seen
        · by_cases hij : j = i
          · subst hij
            simp [dedupEntries, hj, countId, ih]
          · simp [dedupEntries, hj, countId, hij, ih]
        · by_cases hij : j = i
          · subst hij
            have h1 : j ∈ j :: seen := by simp
            simp [dedupEntries, hj, countId, ih, h1]
          · have h1 : (i ∈ j :: seen) = (i ∈ seen) := by
              simp [List.mem_cons]
              intro h; exact absurd h.symm hij
            simp [dedupEntries, hj, countId, hij, ih, h1]

/-- The error list collected by the aggregator loop is exactly the error
messages, in arrival order, appended to the starting list. -/
theorem agg_errors_eq (g : GroupBy) (msgs : List Message) :
    ∀ st : AggState,
      (msgs.foldl (aggStep g) st).errors =
        st.errors ++ msgs.filterMap errOf := by
  induction msgs with
  | nil => intro st; simp
  | cons m rest ih =>
    intro st
    cases m with
    | error e =>
      rw [List.foldl_cons, aggStep_error, ih]
      simp [errOf]
    | sizeEntry uid p s =>
      cases uid with
      | none => rw [List.foldl_cons, aggStep_entry_noId, ih]; simp [errOf]
      | some i =>
        by_cases h : i ∈ st.ids
        · rw [List.foldl_cons, aggStep_entry_stale g st i p s (by simpa using h), ih]
          simp [errOf]
        · rw [List.foldl_cons,
            aggStep_entry_fresh g st i p s (by simpa using h), ih]
          simp [errOf]

/-- The total, dedup set and group map of the aggregation state. -/
def tis (st : AggState) : Nat × List Nat × List (String × Nat) :=
  (st.total, st.ids, st.sizes)

/-- One aggregator step reads nothing from the error list: states agreeing
on total, ids and sizes still agree after any message. -/
theorem tis_aggStep (g : GroupBy) (m : Message) (st st' : AggState)
    (h : tis st = tis st') : tis (aggStep g st m) = tis (aggStep g st' m) := by
  simp only [tis, Prod.mk.injEq] at h
  obtain ⟨h1, h2, h3⟩ := h
  cases m with
  | error e => simp [tis, aggStep_error, h1, h2, h3]
  | sizeEntry uid p s =>
    cases uid with
    | none => simp [tis, aggStep_entry_noId, h1, h2, h3]
    | some i =>
      by_cases hc : i ∈ st.ids
      · rw [aggStep_entry_stale g st i p s (by simpa using hc),
          aggStep_entry_stale g st' i p s (by simpa [h2.symm] using hc)]
        simp [tis, h1, h2, h3]
      · rw [aggStep_entry_fresh g st i p s (by simpa using hc),
          aggStep_entry_fresh g st' i p s (by simpa [h2.symm] using hc)]
        simp [tis, h1, h2, h3]

/-- The whole aggregator loop reads nothing from the error list. -/
theorem tis_foldl (g : GroupBy) (msgs : List Message) :
    ∀ st st' : AggState, tis st = tis st' →
      tis (msgs.foldl (aggStep g) st) = tis (msgs.foldl (aggStep g) st') := by
  induction msgs with
  | nil => intro st st' h; simpa using h
  | cons m rest ih =>
    intro st st' h
    rw [List.foldl_cons, List.foldl_cons]
    exact ih _ _ (tis_aggStep g m st st' h)

/-- Dropping the error messages from the stream leaves the total, the
dedup set and the group map of the final state untouched. -/
theorem tis_filter_entries (g : GroupBy) (msgs : List Message) :
    ∀ st : AggState,
      tis (msgs.foldl (aggStep g) st) =
        tis ((msgs.filter (fun m => isEntry m)).foldl (aggStep g) st) := by
  induction msgs with
  | nil => intro st; simp
  | cons m rest ih =>
    intro st
    cases m with
    | error e =>
      have hstep : tis (aggStep g st (.error e)) = tis st := by
        simp [tis, aggStep_error]
      rw [List.foldl_cons]
      calc tis (rest.foldl (aggStep g) (aggStep g st (.error e)))
          = tis (rest.foldl (aggStep g) st) := tis_foldl g rest _ _ hstep
        _ = tis (((Message.error e :: rest).filter
              (fun m => isEntry m)).foldl (aggStep g) st) := by
            simp [isEntry, ih]
    | sizeEntry uid p s =>
      rw [List.foldl_cons]
      have : (Message.sizeEntry uid p s :: rest).filter (fun m => isEntry m) =
          Message.sizeEntry uid p s :: rest.filter (fun m => isEntry m) := by
        simp [isEntry]
      rw [this, List.foldl_cons]
      exact ih _

/-- Along the whole run, the total plus the initial group-map sum stays
equal to the initial total plus the final group-map sum: every counted
entry adds its size to both sides, every discarded entry and error to
neither. -/
theorem agg_total_sumValues (g : GroupBy) (msgs : List Message) :
    ∀ st : AggState,
      (msgs.foldl (aggStep g) st).total + sumValues st.sizes =
        st.total + sumValues (msgs.foldl (aggStep g) st).sizes := by
  induction msgs with
  | nil => intro st; simp
  | cons m rest ih =>
    intro st
    cases m with
    | error e =>
      rw [List.foldl_cons, aggStep_error]
      simpa using ih { st with errors := st.errors ++ [e] }
    | sizeEntry uid p s =>
      cases uid with
      | none =>
        rw [List.foldl_cons, aggStep_entry_noId]
        have h := ih { st with
          total := st.total + s
          sizes := mapAdd st.sizes (groupKey g p) s }
        simp only [sumValues_mapAdd] at h
        omega
      | some i =>
        by_cases hc : i ∈ st.ids
        · rw [List.foldl_cons, aggStep_entry_stale g st i p s (by simpa using hc)]
          exact ih st
        · rw [List.foldl_cons, aggStep_entry_fresh g st i p s (by simpa using hc)]
          have h := ih { st with
            total := st.total + s
            ids := i :: st.ids
            sizes := mapAdd st.sizes (groupKey g p) s }
          simp only [sumValues_mapAdd] at h
          omega

/-- C1: an entry is counted (size added to the total and to exactly one
group, namely its group key) iff its identity is absent or not yet in the
dedup set; an entry whose identity was already seen leaves the state
entirely unchanged; consequently over a whole run the counted entries are
`dedupEntries [] msgs` — the total and every group-map key are sums over
that subsequence — and each identity is counted exactly once no matter how
many entries carry it or in which order they arrive. -/
theorem C1_dedup_counts_each_identity_once (g : GroupBy) :
    (∀ st i p s, i ∈ st.ids →
        aggStep g st (.sizeEntry (some i) p s) = st) ∧
    (∀ st i p s, i ∉ st.ids →
        (aggStep g st (.sizeEntry (some i) p s)).total = st.total + s ∧
        (∀ k, lookupD (aggStep g st (.sizeEntry (some i) p s)).sizes k =
            lookupD st.sizes k + (if groupKey g p = k then s else 0))) ∧
    (∀ st p s,
        (aggStep g st (.sizeEntry none p s)).total = st.total + s ∧
        (∀ k, lookupD (aggStep g st (.sizeEntry none p s)).sizes k =
            lookupD st.sizes k + (if groupKey g p = k then s else 0))) ∧
    (∀ msgs, (aggregate g msgs).total = sumSizes (dedupEntries [] msgs)) ∧
    (∀ msgs k, lookupD (aggregate g msgs).sizes k =
        sumSizesAt g k (dedupEntries [] msgs)) ∧
    (∀ msgs i, countId i (dedupEntries [] msgs) = min 1 (countId i msgs)) := by
  refine ⟨?_, ?_, ?_, ?_, ?_, ?_⟩
  · intro st i p s h
    exact aggStep_entry_stale g st i p s (by simpa using h)
  · intro st i p s h
    rw [aggStep_entry_fresh g st i p s (by simpa using h)]
    exact ⟨rfl, fun k => lookupD_mapAdd st.sizes (groupKey g p) k s⟩
  · intro st p s
    rw [aggStep_entry_noId]
    exact ⟨rfl, fun k => lookupD_mapAdd st.sizes (groupKey g p) k s⟩
  · intro msgs
    simpa [initAgg] using agg_total_eq g msgs initAgg
  · intro msgs k
    simpa [initAgg, lookupD] using agg_lookupD_eq g k msgs initAgg
  · intro msgs i
    simpa using countId_dedupEntries i msgs []

/-- Witness for C1 at concrete inputs: with identity 7 already counted
(state holding `txt ↦ 100`), a second hard-linked name is discarded
entirely; and over a two-message stream carrying the same identity twice,
the dedup subsequence holds that identity exactly once. -/
theorem C1_dedup_counts_each_identity_once_witness :
    aggStep .Extension ⟨100, [7], [("txt", 100)], []⟩
        (.sizeEntry (some 7) ["r", "b.txt"] 50) =
      ⟨100, [7], [("txt", 100)], []⟩ ∧
    countId 7 (dedupEntries []
      [.sizeEntry (some 7) ["r", "a.txt"] 50,
       .sizeEntry (some 7) ["r", "b.jpg"] 50]) =
      min 1 (countId 7
        [.sizeEntry (some 7) ["r", "a.txt"] 50,
         .sizeEntry (some 7) ["r", "b.jpg"] 50]) :=
  ⟨(C1_dedup_counts_each_identity_once .Extension).1 _ 7 _ 50 (by decide),
   (C1_dedup_counts_each_identity_once .Extension).2.2.2.2.2 _ 7⟩

/-- C2: for every run of the aggregator over any finite message sequence
(hard links or not), the returned total equals the sum of all values of
the returned group map. -/
theorem C2_total_eq_sumValues_groups (g : GroupBy) (msgs : List Message) :
    (aggregate g msgs).total = sumValues (aggregate g msgs).sizes := by
  have h := agg_total_sumValues g msgs initAgg
  simpa [initAgg, sumValues] using h

/-- C7: an `Error` message is appended to the error list — leaving total
and group map untouched — and over a whole run the error list is exactly
the error messages in arrival order, while deleting all error messages
from the stream leaves the returned total and group map unchanged. -/
theorem C7_errors_appended_never_affect_totals (g : GroupBy)
    (msgs : List Message) :
    (∀ st e, aggStep g st (.error e) =
        { st with errors := st.errors ++ [e] }) ∧
    (aggregate g msgs).errors = msgs.filterMap errOf ∧
    (aggregate g msgs).total =
      (aggregate g (msgs.filter (fun m => isEntry m))).total ∧
    (aggregate g msgs).sizes =
      (aggregate g (msgs.filter (fun m => isEntry m))).sizes := by
  have h := tis_filter_entries g msgs initAgg
  simp only [tis, Prod.mk.injEq] at h
  exact ⟨fun st e => aggStep_error g st e,
    by simpa [initAgg] using agg_errors_eq g msgs initAgg,
    h.1, h.2.2⟩

/-!  Lemmas about the walker. -/

mutual

/-- Every message the walk of an entry at `p` emits concerns `p` or a
descendant of `p`. -/
theorem len_le_of_mem_walkFs :
    ∀ (fs : Fs) (p : List String) (m : Message),
      m ∈ walkFs p fs → p.length ≤ (msgPath m).length
  | .missing, p, m, h => by
    simp [walkFs] at h; subst h; simp [msgPath]
  | .file sz uid, p, m, h => by
    simp [walkFs] at h; subst h; simp [msgPath]
  | .symlink sz uid t, p, m, h => by
    simp [walkFs] at h; subst h; simp [msgPath]
  | .dir sz uid none, p, m, h => by
    simp [walkFs] at h; subst h; simp [msgPath]
  | .dir sz uid (some l), p, m, h => by
    have := len_lt_of_mem_walkListing l p m (by simpa [walkFs] using h)
    omega

/-- Every message the walk of a directory listing at `p` emits concerns a
strict descendant of `p`. -/
theorem len_lt_of_mem_walkListing :
    ∀ (l : Listing) (p : List String) (m : Message),
      m ∈ walkListing p l → p.length + 1 ≤ (msgPath m).length
  | .nil, p, m, h => by simp [walkListing] at h
  | .consOk n c rest, p, m, h => by
    rcases List.mem_append.1 (by simpa [walkListing] using h) with h1 | h2
    · have := len_le_of_mem_walkFs c (p ++ [n]) m h1
      simp [List.length_append] at this
      omega
    · exact len_lt_of_mem_walkListing rest p m h2
  | .consErr rest, p, m, h => by
    exact len_lt_of_mem_walkListing rest p m (by simpa [walkListing] using h)

end

/-- Walking a concatenation of listings emits the two message sequences
concatenated: a child of a directory contributes independently of its
siblings. -/
theorem walkListing_append (p : List String) :
    ∀ a b : Listing,
      walkListing p (a.append b) = walkListing p a ++ walkListing p b
  | .nil, b => by simp [Listing.append, walkListing]
  | .consOk n c rest, b => by
    simp [Listing.append, walkListing, walkListing_append p rest b]
  | .consErr rest, b => by
    simp [Listing.append, walkListing, walkListing_append p rest b]

/-- Each root contributes its messages independently of the other roots. -/
theorem walkRoots_append :
    ∀ r1 r2 : List (List String × Fs),
      walkRoots (r1 ++ r2) = walkRoots r1 ++ walkRoots r2
  | [], r2 => by simp [walkRoots]
  | r :: rest, r2 => by
    simp [walkRoots, walkRoots_append rest r2]

mutual

/-- Removing the failed child reads from a tree leaves the walk's message
sequence unchanged. -/
theorem walkFs_scrub : ∀ (fs : Fs) (p : List String),
    walkFs p fs.scrub = walkFs p fs
  | .missing, p => rfl
  | .file sz uid, p => rfl
  | .symlink sz uid t, p => by simp [Fs.scrub, walkFs]
  | .dir sz uid none, p => rfl
  | .dir sz uid (some l), p => by
    simp [Fs.scrub, walkFs, walkListing_scrub l p]

/-- Removing the failed child reads from a listing leaves the walk's
message sequence unchanged. -/
theorem walkListing_scrub : ∀ (l : Listing) (p : List String),
    walkListing p l.scrub = walkListing p l
  | .nil, p => rfl
  | .consOk n c rest, p => by
    simp [Listing.scrub, walkListing, walkFs_scrub c (p ++ [n]),
      walkListing_scrub rest p]
  | .consErr rest, p => by
    simp [Listing.scrub, walkListing, walkListing_scrub rest p]

end

/-- C6: the walker never emits a `SizeEntry` for a directory — the
directory's own metadata size does not occur in the walk's messages (its
message list is unchanged under any other size), and no `SizeEntry` at the
directory's own path is ever emitted; directories only produce children. -/
theorem C6_directories_never_sized (p : List String) (sz sz' : Nat)
    (uid : Option Nat) (l : Option Listing) :
    walkFs p (.dir sz uid l) = walkFs p (.dir sz' uid l) ∧
    ∀ uid2 s, Message.sizeEntry uid2 p s ∉ walkFs p (.dir sz uid l) := by
  constructor
  · cases l <;> rfl
  · intro uid2 s hmem
    cases l with
    | none => simp [walkFs] at hmem
    | some l' =>
      have h := len_lt_of_mem_walkListing l' p _
        (by simpa [walkFs] using hmem)
      simp [msgPath] at h
  
/-- Witness for C6: a directory of size 4096 holding one file; changing
the directory's size to 9999 changes nothing, and no `SizeEntry` at the
directory's path is emitted. -/
theorem C6_directories_never_sized_witness :
    walkFs ["r"] (.dir 4096 (some 1)
        (some (.consOk "a.txt" (.file 100 (some 2)) .nil))) =
      walkFs ["r"] (.dir 9999 (some 1)
        (some (.consOk "a.txt" (.file 100 (some 2)) .nil))) ∧
    Message.sizeEntry (some 1) ["r"] 4096 ∉
      walkFs ["r"] (.dir 4096 (some 1)
        (some (.consOk "a.txt" (.file 100 (some 2)) .nil))) :=
  ⟨(C6_directories_never_sized ["r"] 4096 9999 (some 1) _).1,
   (C6_directories_never_sized ["r"] 4096 9999 (some 1) _).2 (some 1) 4096⟩

/-- C8: filesystem failures are recovered locally and are never fatal: a
metadata failure yields exactly the one-message sequence
`[NoMetadataForPath]`, an unreadable directory exactly
`[CouldNotReadDir]`, and walks distribute over listings and root lists,
so every sibling and every other root is still fully walked — in
particular a broken entry or unreadable subdirectory in the middle of a
listing contributes exactly its one error between its siblings'
untouched message sequences. -/
theorem C8_errors_recovered_locally :
    (∀ p, walkFs p .missing = [.error (.noMetadataForPath p)]) ∧
    (∀ p sz uid,
        walkFs p (.dir sz uid none) = [.error (.couldNotReadDir p)]) ∧
    (∀ p a b, walkListing p (a.append b) =
        walkListing p a ++ walkListing p b) ∧
    (∀ r1 r2, walkRoots (r1 ++ r2) = walkRoots r1 ++ walkRoots r2) ∧
    (∀ p a b n sz uid,
        walkListing p (a.append (.consOk n (.dir sz uid none) b)) =
          walkListing p a ++ [.error (.couldNotReadDir (p ++ [n]))] ++
            walkListing p b) ∧
    (∀ p a b n,
        walkListing p (a.append (.consOk n .missing b)) =
          walkListing p a ++ [.error (.noMetadataForPath (p ++ [n]))] ++
            walkListing p b) := by
  refine ⟨fun p => rfl, fun p sz uid => rfl, walkListing_append, walkRoots_append,
    ?_, ?_⟩
  · intro p a b n sz uid
    rw [walkListing_append]
    simp [walkListing, walkFs]
  · intro p a b n
    rw [walkListing_append]
    simp [walkListing, walkFs]

/-- C9: a child entry that fails to read out of a directory listing is
silently skipped — locally the walk of `consErr rest` is the walk of
`rest`, and globally scrubbing every failed child read from a tree leaves
the emitted message sequence (entries and errors alike) unchanged, so such
failures leave no trace in the results. -/
theorem C9_failed_child_reads_silently_skipped :
    (∀ p rest, walkListing p (.consErr rest) = walkListing p rest) ∧
    (∀ p fs, walkFs p (Fs.scrub fs) = walkFs p fs) ∧
    (∀ p l, walkListing p (Listing.scrub l) = walkListing p l) :=
  ⟨fun _ _ => rfl, fun p fs => walkFs_scrub fs p,
   fun p l => walkListing_scrub l p⟩

/-- C10: a symbolic link is never followed: its metadata is taken without
following the link (reported non-directory, with the link's own size and
identity), and the walk emits exactly one `SizeEntry` with the link's own
size — the target subtree, even a whole directory tree, is ignored. -/
theorem C10_symlinks_never_followed (p : List String) (sz : Nat)
    (uid : Option Nat) (t t' : Fs) :
    lstat (.symlink sz uid t) = some ⟨false, sz, uid⟩ ∧
    walkFs p (.symlink sz uid t) = [.sizeEntry uid p sz] ∧
    walkFs p (.symlink sz uid t) = walkFs p (.symlink sz uid t') :=
  ⟨rfl, rfl, rfl⟩

/-!  Case-insensitivity of the extension-derived group keys. -/

/-- A successful association-list lookup returns a listed pair. -/
theorem pair_mem_of_lookup_eq_some {l : List (Char × Char)} {a b : Char}
    (h : l.lookup a = some b) : (a, b) ∈ l := by
  induction l with
  | nil => simp [List.lookup] at h
  | cons x rest ih =>
    obtain ⟨k, v⟩ := x
    by_cases hk : a = k
    · subst hk
      simp [List.lookup] at h
      simp [h]
    · have hk' : (a == k) = false := beq_eq_false_iff_ne.2 hk
      rw [List.lookup, hk'] at h
      exact List.mem_cons_of_mem _ (ih h)

theorem asciiLowerChar_eq_dot_iff (c : Char) :
    asciiLowerChar c = '.' ↔ c = '.' := by
  constructor
  · intro h
    cases hl : lowerPairs.lookup c with
    | none => simpa [asciiLowerChar, hl] using h
    | some d =>
      have hmem := pair_mem_of_lookup_eq_some hl
      have hd : d = '.' := by simpa [asciiLowerChar, hl] using h
      subst hd
      have : ∀ x ∈ lowerPairs, x.2 ≠ '.' := by decide
      exact absurd rfl (this _ hmem)
  · intro h
    subst h
    decide

theorem asciiLowerChar_idem (c : Char) :
    asciiLowerChar (asciiLowerChar c) = asciiLowerChar c := by
  cases hl : lowerPairs.lookup c with
  | none =>
    have h : asciiLowerChar c = c := by simp [asciiLowerChar, hl]
    rw [h]
    exact h
  | some d =>
    have h : asciiLowerChar c = d := by simp [asciiLowerChar, hl]
    have hmem := pair_mem_of_lookup_eq_some hl
    have hfix : ∀ x ∈ lowerPairs, asciiLowerChar x.2 = x.2 := by decide
    rw [h]
    exact hfix _ hmem

theorem map_asciiLowerChar_idem : ∀ l : List Char,
    (l.map asciiLowerChar).map asciiLowerChar = l.map asciiLowerChar
  | [] => rfl
  | c :: rest => by
    simp [map_asciiLowerChar_idem rest, asciiLowerChar_idem]

theorem toAsciiLowercase_idem (s : String) :
    toAsciiLowercase (toAsciiLowercase s) = toAsciiLowercase s :=
  congrArg String.mk (map_asciiLowerChar_idem s.data)

/-- ASCII lowercasing preserves dot positions, so it commutes with taking
the characters after the last dot. -/
theorem afterLastDot_map_lower : ∀ l : List Char,
    afterLastDot (l.map asciiLowerChar) =
      (afterLastDot l).map (List.map asciiLowerChar) := by
  intro l
  induction l with
  | nil => rfl
  | cons c rest ih =>
    simp only [List.map_cons, afterLastDot, ih]
    cases h : afterLastDot rest with
    | some e => simp
    | none =>
      simp only [Option.map_none]
      by_cases hc : c = '.'
      · subst hc
        simp [asciiLowerChar_eq_dot_iff]
      · have : ¬ (asciiLowerChar c = '.') :=
          fun h => hc ((asciiLowerChar_eq_dot_iff c).1 h)
        simp [hc, this]

/-- ASCII lowercasing a file name lowercases its extension. -/
theorem extOfName_lower (n : String) :
    extOfName (toAsciiLowercase n) = (extOfName n).map toAsciiLowercase := by
  cases hd : n.data with
  | nil => simp [extOfName, toAsciiLowercase, hd]
  | cons c rest =>
    simp only [extOfName, toAsciiLowercase, hd, List.map_cons]
    rw [afterLastDot_map_lower]
    cases afterLastDot rest with
    | none => rfl
    | some e => rfl

theorem get_filename_append (p : List String) (n : String) :
    get_filename (p ++ [n]) = n := by
  simp [get_filename]

/-- Lowercasing the file name does not change the (already lowercased)
extension key: extension-derived grouping is ASCII-case-insensitive. -/
theorem get_ext_append_lower (p : List String) (n : String) :
    get_ext (p ++ [toAsciiLowercase n]) = get_ext (p ++ [n]) := by
  rw [get_ext, get_ext, get_filename_append, get_filename_append,
    extOfName_lower]
  cases h : extOfName n with
  | none => rfl
  | some e => simp [toAsciiLowercase_idem]

/-- A path whose file name has no extension gets the empty extension key. -/
theorem get_ext_append_of_no_ext (p : List String) (n : String)
    (h : extOfName n = none) : get_ext (p ++ [n]) = "" := by
  rw [get_ext, get_filename_append, h]
  rfl

/-- C4: in Extension mode the group key of a counted path is `get_ext`,
the ASCII-lowercased file extension — stable under lowercasing the file
name itself (case-insensitive grouping), already lowercase, and empty when
the file name has no extension; concretely, `FILE.TXT` and `file.txt` both
key `"txt"`, and their sizes accumulate into that one key. -/
theorem C4_extension_key_lowercase_case_insensitive :
    (∀ p, groupKey .Extension p = get_ext p) ∧
    (∀ p n, get_ext (p ++ [toAsciiLowercase n]) = get_ext (p ++ [n])) ∧
    (∀ p, toAsciiLowercase (get_ext p) = get_ext p) ∧
    (∀ p n, extOfName n = none → get_ext (p ++ [n]) = "") ∧
    get_ext ["r", "FILE.TXT"] = "txt" ∧ get_ext ["r", "file.txt"] = "txt" ∧
    lookupD (aggregate .Extension
      [.sizeEntry (some 1) ["r", "FILE.TXT"] 100,
       .sizeEntry (some 2) ["r", "file.txt"] 50]).sizes "txt" = 150 := by
  refine ⟨fun p => rfl, get_ext_append_lower, ?_, get_ext_append_of_no_ext,
    by decide, by decide, by decide⟩
  intro p
  exact toAsciiLowercase_idem ((extOfName (get_filename p)).getD "")

/-- Witness for C4 at a concrete input: a bare `README` has no extension,
so its Extension-mode key is the empty string. -/
theorem C4_extension_key_lowercase_case_insensitive_witness :
    get_ext (["r"] ++ ["README"]) = "" :=
  C4_extension_key_lowercase_case_insensitive.2.2.2.1 ["r"] "README"
    (by decide)

/-- C5: in Type mode the group key is the category of the lowercased
extension under the static table, rendered as its name; an extension the
table does not list — and in particular a missing extension — keys
`Other`, while the same no-extension path keys the empty string in
Extension mode; the bare file name is never consulted. -/
theorem C5_type_key_from_table_default_other :
    (∀ p, groupKey .Type p = (FileType.get_filetype (get_ext p)).str) ∧
    (∀ e, FILETYPE_MAP.lookup e = none → FileType.get_filetype e = .Other) ∧
    (∀ p n, extOfName n = none →
        groupKey .Extension (p ++ [n]) = "" ∧
        groupKey .Type (p ++ [n]) = "Other") ∧
    FileType.get_filetype "txt" = .Document ∧
    FileType.get_filetype "jpg" = .Image ∧
    FileType.get_filetype "xyzq" = .Other := by
  refine ⟨fun p => rfl, ?_, ?_, by decide, by decide, by decide⟩
  · intro e h
    simp [FileType.get_filetype, h]
  · intro p n h
    have hext := get_ext_append_of_no_ext p n h
    refine ⟨hext, ?_⟩
    show (FileType.get_filetype (get_ext (p ++ [n]))).str = "Other"
    rw [hext]
    decide

/-- Witness for C5 at a concrete input: a file whose bare name is `py`
(a listed extension) but which has no extension keys the empty string in
Extension mode and `Other` in Type mode — the bare name is not consulted —
and an unlisted extension keys `Other`. -/
theorem C5_type_key_from_table_default_other_witness :
    (groupKey .Extension (["r"] ++ ["py"]) = "" ∧
      groupKey .Type (["r"] ++ ["py"]) = "Other") ∧
    FileType.get_filetype "qqq" = .Other :=
  ⟨C5_type_key_from_table_default_other.2.2.1 ["r"] "py" (by decide),
   C5_type_key_from_table_default_other.2.1 "qqq" (by decide)⟩

/-!
Value-determinism across arrival orders (claim C3).  A run of
`Walk::run` is the aggregation of the walker's messages in some arrival
order; rayon's scheduling makes that order an arbitrary permutation of the
canonical left-to-right linearization `walkRoots`.  Two aggregation states
are observationally equal when they agree on the total, on the dedup set
as a set, on the group map as a key → value function, and on the error
list as a multiset.
-/

/-- Two `SizeEntry` messages carrying the same identity carry the same
size (true of any two directory entries of one unchanged physical file). -/
def sameIdSameSize (m1 m2 : Message) : Bool :=
  match m1, m2 with
  | .sizeEntry (some i) _ s1, .sizeEntry (some j) _ s2 => i != j || s1 == s2
  | _, _ => true

/-- Two `SizeEntry` messages carrying the same identity have the same
group key under `g` (e.g. no hard link is visible under two names with
different keys). -/
def sameIdSameKey (g : GroupBy) (m1 m2 : Message) : Bool :=
  match m1, m2 with
  | .sizeEntry (some i) p1 _, .sizeEntry (some j) p2 _ =>
    i != j || groupKey g p1 == groupKey g p2
  | _, _ => true

theorem sameIdSameSize_symm : ∀ {m1 m2 : Message},
    sameIdSameSize m1 m2 = true → sameIdSameSize m2 m1 = true := by
  intro m1 m2 h
  cases m1 with
  | error e1 =>
    cases m2 with
    | error e2 => rfl
    | sizeEntry u p s => cases u <;> rfl
  | sizeEntry u1 p1 s1 =>
    cases m2 with
    | error e2 => cases u1 <;> rfl
    | sizeEntry u2 p2 s2 =>
      cases u1 with
      | none => cases u2 <;> rfl
      | some i =>
        cases u2 with
        | none => rfl
        | some j =>
          simp only [sameIdSameSize, Bool.or_eq_true, bne_iff_ne,
            beq_iff_eq] at h ⊢
          rcases h with h | h
          · exact Or.inl fun hh => h hh.symm
          · exact Or.inr h.symm

theorem sameIdSameKey_symm (g : GroupBy) : ∀ {m1 m2 : Message},
    sameIdSameKey g m1 m2 = true → sameIdSameKey g m2 m1 = true := by
  intro m1 m2 h
  cases m1 with
  | error e1 =>
    cases m2 with
    | error e2 => rfl
    | sizeEntry u p s => cases u <;> rfl
  | sizeEntry u1 p1 s1 =>
    cases m2 with
    | error e2 => cases u1 <;> rfl
    | sizeEntry u2 p2 s2 =>
      cases u1 with
      | none => cases u2 <;> rfl
      | some i =>
        cases u2 with
        | none => rfl
        | some j =>
          simp only [sameIdSameKey, Bool.or_eq_true, bne_iff_ne,
            beq_iff_eq] at h ⊢
          rcases h with h | h
          · exact Or.inl fun hh => h hh.symm
          · exact Or.inr h.symm

/-- Observational equality of aggregation states, without the group map:
same total, same dedup set as a set, same errors as a multiset. -/
def ObsA (s t : AggState) : Prop :=
  s.total = t.total ∧ (∀ i, i ∈ s.ids ↔ i ∈ t.ids) ∧ s.errors.Perm t.errors

/-- Full observational equality: additionally the group maps agree as
key → value functions. -/
def ObsB (s t : AggState) : Prop :=
  ObsA s t ∧ ∀ k, lookupD s.sizes k = lookupD t.sizes k

theorem ObsA_refl (s : AggState) : ObsA s s :=
  ⟨rfl, fun _ => Iff.rfl, List.Perm.refl _⟩

theorem ObsA_trans {a b c : AggState} (h1 : ObsA a b) (h2 : ObsA b c) :
    ObsA a c :=
  ⟨h1.1.trans h2.1, fun i => (h1.2.1 i).trans (h2.2.1 i),
   h1.2.2.trans h2.2.2⟩

theorem ObsB_refl (s : AggState) : ObsB s s := ⟨ObsA_refl s, fun _ => rfl⟩

theorem ObsB_trans {a b c : AggState} (h1 : ObsB a b) (h2 : ObsB b c) :
    ObsB a c :=
  ⟨ObsA_trans h1.1 h2.1, fun k => (h1.2 k).trans (h2.2 k)⟩

/-- One aggregator step takes observationally equal states (without the
group map) to observationally equal states. -/
theorem aggStep_congA (g : GroupBy) (m : Message) {s t : AggState}
    (h : ObsA s t) : ObsA (aggStep g s m) (aggStep g t m) := by
  obtain ⟨h1, h2, h3⟩ := h
  cases m with
  | error e =>
    rw [aggStep_error, aggStep_error]
    exact ⟨h1, h2, h3.append_right [e]⟩
  | sizeEntry uid p sz =>
    cases uid with
    | none =>
      rw [aggStep_entry_noId, aggStep_entry_noId]
      exact ⟨by simp [h1], h2, h3⟩
    | some i =>
      by_cases hc : i ∈ s.ids
      · have hc' : i ∈ t.ids := (h2 i).1 hc
        rw [aggStep_entry_stale g s i p sz (by simpa using hc),
          aggStep_entry_stale g t i p sz (by simpa using hc')]
        exact ⟨h1, h2, h3⟩
      · have hc' : i ∉ t.ids := fun hh => hc ((h2 i).2 hh)
        rw [aggStep_entry_fresh g s i p sz (by simpa using hc),
          aggStep_entry_fresh g t i p sz (by simpa using hc')]
        refine ⟨by simp [h1], ?_, h3⟩
        intro x
        simp only [List.mem_cons]
        exact or_congr Iff.rfl (h2 x)

/-- One aggregator step takes fully observationally equal states to fully
observationally equal states. -/
theorem aggStep_congB (g : GroupBy) (m : Message) {s t : AggState}
    (h : ObsB s t) : ObsB (aggStep g s m) (aggStep g t m) := by
  obtain ⟨hA, h4⟩ := h
  refine ⟨aggStep_congA g m hA, ?_⟩
  obtain ⟨h1, h2, h3⟩ := hA
  cases m with
  | error e =>
    rw [aggStep_error, aggStep_error]
    exact h4
  | sizeEntry uid p sz =>
    cases uid with
    | none =>
      rw [aggStep_entry_noId, aggStep_entry_noId]
      intro k
      simp only [lookupD_mapAdd]
      rw [h4 k]
    | some i =>
      by_cases hc : i ∈ s.ids
      · have hc' : i ∈ t.ids := (h2 i).1 hc
        rw [aggStep_entry_stale g s i p sz (by simpa using hc),
          aggStep_entry_stale g t i p sz (by simpa using hc')]
        exact h4
      · have hc' : i ∉ t.ids := fun hh => hc ((h2 i).2 hh)
        rw [aggStep_entry_fresh g s i p sz (by simpa using hc),
          aggStep_entry_fresh g t i p sz (by simpa using hc')]
        intro k
        simp only [lookupD_mapAdd]
        rw [h4 k]

theorem foldl_congA (g : GroupBy) (msgs : List Message) :
    ∀ {s t : AggState}, ObsA s t →
      ObsA (msgs.foldl (aggStep g) s) (msgs.foldl (aggStep g) t) := by
  induction msgs with
  | nil => intro s t h; simpa using h
  | cons m rest ih =>
    intro s t h
    rw [List.foldl_cons, List.foldl_cons]
    exact ih (aggStep_congA g m h)

theorem foldl_congB (g : GroupBy) (msgs : List Message) :
    ∀ {s t : AggState}, ObsB s t →
      ObsB (msgs.foldl (aggStep g) s) (msgs.foldl (aggStep g) t) := by
  induction msgs with
  | nil => intro s t h; simpa using h
  | cons m rest ih =>
    intro s t h
    rw [List.foldl_cons, List.foldl_cons]
    exact ih (aggStep_congB g m h)

/-- An aggregator step for an entry and one for an error commute exactly:
they touch disjoint parts of the state. -/
theorem aggStep_entry_error_comm (g : GroupBy) (uid : Option Nat)
    (p : List String) (s : Nat) (e : WalkError) (st : AggState) :
    aggStep g (aggStep g st (.sizeEntry uid p s)) (.error e) =
      aggStep g (aggStep g st (.error e)) (.sizeEntry uid p s) := by
  cases uid with
  | none =>
    rw [aggStep_entry_noId g st p s, aggStep_error, aggStep_error g st e,
      aggStep_entry_noId]
  | some i =>
    by_cases hc : i ∈ st.ids
    · rw [aggStep_entry_stale g st i p s (by simpa using hc), aggStep_error,
        aggStep_entry_stale g { st with errors := st.errors ++ [e] } i p s
          (by simpa using hc)]
    · rw [aggStep_entry_fresh g st i p s (by simpa using hc), aggStep_error,
        aggStep_error g st e,
        aggStep_entry_fresh g { st with errors := st.errors ++ [e] } i p s
          (by simpa using hc)]

/-- Swapping two adjacent messages changes nothing observable, provided
entries sharing an identity share a size; the group maps also agree
pointwise when, additionally, entries sharing an identity share a group
key. -/
theorem aggStep_comm (g : GroupBy) (m1 m2 : Message) (st : AggState)
    (hsz : sameIdSameSize m1 m2 = true) :
    ObsA (aggStep g (aggStep g st m1) m2) (aggStep g (aggStep g st m2) m1) ∧
    (sameIdSameKey g m1 m2 = true →
      ∀ k, lookupD (aggStep g (aggStep g st m1) m2).sizes k =
        lookupD (aggStep g (aggStep g st m2) m1).sizes k) := by
  cases m1 with
  | error e1 =>
    cases m2 with
    | error e2 =>
      rw [aggStep_error g st e1, aggStep_error g st e2,
        aggStep_error g { st with errors := st.errors ++ [e1] } e2,
        aggStep_error g { st with errors := st.errors ++ [e2] } e1]
      refine ⟨⟨rfl, fun i => Iff.rfl, ?_⟩, fun _ k => rfl⟩
      show (st.errors ++ [e1] ++ [e2]).Perm (st.errors ++ [e2] ++ [e1])
      rw [List.append_assoc, List.append_assoc]
      exact List.Perm.append_left _ (List.Perm.swap e2 e1 [])
    | sizeEntry u2 p2 s2 =>
      rw [← aggStep_entry_error_comm g u2 p2 s2 e1 st]
      exact ⟨ObsA_refl _, fun _ _ => rfl⟩
  | sizeEntry u1 p1 s1 =>
    cases m2 with
    | error e2 =>
      rw [aggStep_entry_error_comm g u1 p1 s1 e2 st]
      exact ⟨ObsA_refl _, fun _ _ => rfl⟩
    | sizeEntry u2 p2 s2 =>
      cases u1 with
      | none =>
        cases u2 with
        | none =>
          rw [aggStep_entry_noId g st p1 s1, aggStep_entry_noId g st p2 s2,
            aggStep_entry_noId g { st with total := st.total + s1, sizes := mapAdd st.sizes (groupKey g p1) s1 } p2 s2,
            aggStep_entry_noId g { st with total := st.total + s2, sizes := mapAdd st.sizes (groupKey g p2) s2 } p1 s1]
          constructor
          · exact ⟨by show st.total + s1 + s2 = st.total + s2 + s1; omega,
              fun i => Iff.rfl, List.Perm.refl _⟩
          · intro _ k
            show lookupD (mapAdd (mapAdd st.sizes (groupKey g p1) s1) (groupKey g p2) s2) k =
              lookupD (mapAdd (mapAdd st.sizes (groupKey g p2) s2) (groupKey g p1) s1) k
            simp only [lookupD_mapAdd]
            omega
        | some j =>
          by_cases hj : j ∈ st.ids
          · rw [aggStep_entry_noId g st p1 s1,
              aggStep_entry_stale g st j p2 s2 (by simpa using hj),
              aggStep_entry_noId g st p1 s1,
              aggStep_entry_stale g { st with total := st.total + s1, sizes := mapAdd st.sizes (groupKey g p1) s1 } j p2 s2 (by simpa using hj)]
            exact ⟨ObsA_refl _, fun _ _ => rfl⟩
          · rw [aggStep_entry_noId g st p1 s1,
              aggStep_entry_fresh g st j p2 s2 (by simpa using hj),
              aggStep_entry_noId g { st with total := st.total + s2, ids := j :: st.ids, sizes := mapAdd st.sizes (groupKey g p2) s2 } p1 s1,
              aggStep_entry_fresh g { st with total := st.total + s1, sizes := mapAdd st.sizes (groupKey g p1) s1 } j p2 s2 (by simpa using hj)]
            constructor
            · exact ⟨by show st.total + s1 + s2 = st.total + s2 + s1; omega,
                fun i => Iff.rfl, List.Perm.refl _⟩
            · intro _ k
              show lookupD (mapAdd (mapAdd st.sizes (groupKey g p1) s1) (groupKey g p2) s2) k =
                lookupD (mapAdd (mapAdd st.sizes (groupKey g p2) s2) (groupKey g p1) s1) k
              simp only [lookupD_mapAdd]
              omega
      | some i =>
        cases u2 with
        | none =>
          by_cases hi : i ∈ st.ids
          · rw [aggStep_entry_stale g st i p1 s1 (by simpa using hi),
              aggStep_entry_noId g st p2 s2,
              aggStep_entry_stale g { st with total := st.total + s2, sizes := mapAdd st.sizes (groupKey g p2) s2 } i p1 s1 (by simpa using hi)]
            exact ⟨ObsA_refl _, fun _ _ => rfl⟩
          · rw [aggStep_entry_fresh g st i p1 s1 (by simpa using hi),
              aggStep_entry_noId g st p2 s2,
              aggStep_entry_noId g { st with total := st.total + s1, ids := i :: st.ids, sizes := mapAdd st.sizes (groupKey g p1) s1 } p2 s2,
              aggStep_entry_fresh g { st with total := st.total + s2, sizes := mapAdd st.sizes (groupKey g p2) s2 } i p1 s1 (by simpa using hi)]
            constructor
            · exact ⟨by show st.total + s1 + s2 = st.total + s2 + s1; omega,
                fun x => Iff.rfl, List.Perm.refl _⟩
            · intro _ k
              show lookupD (mapAdd (mapAdd st.sizes (groupKey g p1) s1) (groupKey g p2) s2) k =
                lookupD (mapAdd (mapAdd st.sizes (groupKey g p2) s2) (groupKey g p1) s1) k
              simp only [lookupD_mapAdd]
              omega
        | some j =>
          by_cases hij : i = j
          · subst hij
            have hs : s1 = s2 := by simpa [sameIdSameSize] using hsz
            by_cases hi : i ∈ st.ids
            · rw [aggStep_entry_stale g st i p1 s1 (by simpa using hi),
                aggStep_entry_stale g st i p2 s2 (by simpa using hi),
                aggStep_entry_stale g st i p1 s1 (by simpa using hi)]
              exact ⟨ObsA_refl _, fun _ _ => rfl⟩
            · rw [aggStep_entry_fresh g st i p1 s1 (by simpa using hi),
                aggStep_entry_fresh g st i p2 s2 (by simpa using hi),
                aggStep_entry_stale g { st with total := st.total + s1, ids := i :: st.ids, sizes := mapAdd st.sizes (groupKey g p1) s1 } i p2 s2 (by simp),
                aggStep_entry_stale g { st with total := st.total + s2, ids := i :: st.ids, sizes := mapAdd st.sizes (groupKey g p2) s2 } i p1 s1 (by simp)]
              constructor
              · exact ⟨by show st.total + s1 = st.total + s2; omega,
                  fun x => Iff.rfl, List.Perm.refl _⟩
              · intro hkey k
                have hk : groupKey g p1 = groupKey g p2 := by
                  simpa [sameIdSameKey] using hkey
                show lookupD (mapAdd st.sizes (groupKey g p1) s1) k =
                  lookupD (mapAdd st.sizes (groupKey g p2) s2) k
                rw [hk, hs]
          · by_cases hi : i ∈ st.ids <;> by_cases hj : j ∈ st.ids
            · rw [aggStep_entry_stale g st i p1 s1 (by simpa using hi),
                aggStep_entry_stale g st j p2 s2 (by simpa using hj),
                aggStep_entry_stale g st i p1 s1 (by simpa using hi)]
              exact ⟨ObsA_refl _, fun _ _ => rfl⟩
            · rw [aggStep_entry_stale g st i p1 s1 (by simpa using hi),
                aggStep_entry_fresh g st j p2 s2 (by simpa using hj),
                aggStep_entry_stale g { st with total := st.total + s2, ids := j :: st.ids, sizes := mapAdd st.sizes (groupKey g p2) s2 } i p1 s1 (by simp [hi])]
              exact ⟨ObsA_refl _, fun _ _ => rfl⟩
            · rw [aggStep_entry_fresh g st i p1 s1 (by simpa using hi),
                aggStep_entry_stale g st j p2 s2 (by simpa using hj),
                aggStep_entry_stale g { st with total := st.total + s1, ids := i :: st.ids, sizes := mapAdd st.sizes (groupKey g p1) s1 } j p2 s2 (by simp [hj]),
                aggStep_entry_fresh g st i p1 s1 (by simpa using hi)]
              exact ⟨ObsA_refl _, fun _ _ => rfl⟩
            · rw [aggStep_entry_fresh g st i p1 s1 (by simpa using hi),
                aggStep_entry_fresh g st j p2 s2 (by simpa using hj),
                aggStep_entry_fresh g { st with total := st.total + s1, ids := i :: st.ids, sizes := mapAdd st.sizes (groupKey g p1) s1 } j p2 s2 (by simp [hj, Ne.symm hij]),
                aggStep_entry_fresh g { st with total := st.total + s2, ids := j :: st.ids, sizes := mapAdd st.sizes (groupKey g p2) s2 } i p1 s1 (by simp [hi, hij])]
              constructor
              · refine ⟨by show st.total + s1 + s2 = st.total + s2 + s1; omega,
                  fun x => ?_, List.Perm.refl _⟩
                show x ∈ j :: i :: st.ids ↔ x ∈ i :: j :: st.ids
                simp only [List.mem_cons]
                tauto
              · intro _ k
                show lookupD (mapAdd (mapAdd st.sizes (groupKey g p1) s1) (groupKey g p2) s2) k =
                  lookupD (mapAdd (mapAdd st.sizes (groupKey g p2) s2) (groupKey g p1) s1) k
                simp only [lookupD_mapAdd]
                omega

/-- Aggregating any permutation of a message stream whose same-identity
entries agree in size yields the same total, the same dedup set and the
same error multiset. -/
theorem aggregate_permA (g : GroupBy) :
    ∀ {l1 l2 : List Message}, l1.Perm l2 →
      l1.Pairwise (fun a b => sameIdSameSize a b = true) →
      ∀ st, ObsA (l1.foldl (aggStep g) st) (l2.foldl (aggStep g) st) := by
  intro l1 l2 hp
  induction hp with
  | nil => intro _ st; exact ObsA_refl _
  | cons x hp ih =>
    intro hsz st
    rw [List.foldl_cons, List.foldl_cons]
    exact ih hsz.of_cons (aggStep g st x)
  | swap x y l =>
    intro hsz st
    rw [List.foldl_cons, List.foldl_cons, List.foldl_cons, List.foldl_cons]
    apply foldl_congA
    exact (aggStep_comm g y x st
      ((List.pairwise_cons.1 hsz).1 x (List.mem_cons_self x l))).1
  | trans hp1 hp2 ih1 ih2 =>
    intro hsz st
    exact ObsA_trans (ih1 hsz st)
      (ih2 ((hp1.pairwise_iff (fun hab => sameIdSameSize_symm hab)).1 hsz) st)

/-- When additionally same-identity entries agree in group key, any
permutation also yields the same group map, pointwise. -/
theorem aggregate_permB (g : GroupBy) :
    ∀ {l1 l2 : List Message}, l1.Perm l2 →
      l1.Pairwise (fun a b => sameIdSameSize a b = true) →
      l1.Pairwise (fun a b => sameIdSameKey g a b = true) →
      ∀ st, ObsB (l1.foldl (aggStep g) st) (l2.foldl (aggStep g) st) := by
  intro l1 l2 hp
  induction hp with
  | nil => intro _ _ st; exact ObsB_refl _
  | cons x hp ih =>
    intro hsz hkey st
    rw [List.foldl_cons, List.foldl_cons]
    exact ih hsz.of_cons hkey.of_cons (aggStep g st x)
  | swap x y l =>
    intro hsz hkey st
    rw [List.foldl_cons, List.foldl_cons, List.foldl_cons, List.foldl_cons]
    apply foldl_congB
    have hc := aggStep_comm g y x st
      ((List.pairwise_cons.1 hsz).1 x (List.mem_cons_self x l))
    exact ⟨hc.1, hc.2 ((List.pairwise_cons.1 hkey).1 x (List.mem_cons_self x l))⟩
  | trans hp1 hp2 ih1 ih2 =>
    intro hsz hkey st
    exact ObsB_trans (ih1 hsz hkey st)
      (ih2 ((hp1.pairwise_iff (fun hab => sameIdSameSize_symm hab)).1 hsz)
        ((hp1.pairwise_iff (fun hab => sameIdSameKey_symm g hab)).1 hkey) st)

/-- A directory holding one physical file (identity 1) under the two
hard-linked names `a.txt` and `b.jpg`. -/
def hardLinkTree : Fs :=
  .dir 4096 (some 0) (some (.consOk "a.txt" (.file 100 (some 1))
    (.consOk "b.jpg" (.file 100 (some 1)) .nil)))

/-- Counterexample to C3 as stated: over the unchanged `hardLinkTree`
with the Extension configuration, two legitimate runs — two arrival
orders of the same walker messages — return different group maps: one
credits the 100 bytes to `txt`, the other to `jpg`.  Total and errors do
agree; the groups map does not, so the three-way equality claimed fails. -/
theorem C3_counterexample :
    (walkRoots [(["r"], hardLinkTree)] =
      [.sizeEntry (some 1) ["r", "a.txt"] 100,
       .sizeEntry (some 1) ["r", "b.jpg"] 100]) ∧
    [Message.sizeEntry (some 1) ["r", "b.jpg"] 100,
     Message.sizeEntry (some 1) ["r", "a.txt"] 100].Perm
      (walkRoots [(["r"], hardLinkTree)]) ∧
    lookupD (aggregate .Extension
      (walkRoots [(["r"], hardLinkTree)])).sizes "txt" = 100 ∧
    lookupD (aggregate .Extension
      [Message.sizeEntry (some 1) ["r", "b.jpg"] 100,
       Message.sizeEntry (some 1) ["r", "a.txt"] 100]).sizes "txt" = 0 ∧
    (aggregate .Extension (walkRoots [(["r"], hardLinkTree)])).sizes ≠
      (aggregate .Extension
        [Message.sizeEntry (some 1) ["r", "b.jpg"] 100,
         Message.sizeEntry (some 1) ["r", "a.txt"] 100]).sizes := by
  decide

/-- C3 (amended): over the same unchanged tree and configuration, any two
arrival orders of the walker's messages return the same total and the
same error multiset (given that entries sharing an identity share a size,
as they do for an unchanged physical file); the group maps are also equal
— pointwise — provided no identity is visited under two names with
different group keys (in particular for trees with no hard links).
Which group is credited when hard-linked names disagree is a race, as
`C3_counterexample` exhibits. -/
theorem C3_value_determinism_amended (g : GroupBy)
    (roots : List (List String × Fs)) (l1 l2 : List Message)
    (h1 : l1.Perm (walkRoots roots)) (h2 : l2.Perm (walkRoots roots))
    (hsz : (walkRoots roots).Pairwise
      (fun a b => sameIdSameSize a b = true)) :
    (aggregate g l1).total = (aggregate g l2).total ∧
    (aggregate g l1).errors.Perm (aggregate g l2).errors ∧
    ((walkRoots roots).Pairwise (fun a b => sameIdSameKey g a b = true) →
      ∀ k, lookupD (aggregate g l1).sizes k =
        lookupD (aggregate g l2).sizes k) := by
  have hp : l1.Perm l2 := h1.trans h2.symm
  have hsz1 : l1.Pairwise (fun a b => sameIdSameSize a b = true) :=
    (h1.pairwise_iff (fun hab => sameIdSameSize_symm hab)).2 hsz
  have hA := aggregate_permA g hp hsz1 initAgg
  refine ⟨hA.1, hA.2.2, ?_⟩
  intro hkey k
  have hkey1 : l1.Pairwise (fun a b => sameIdSameKey g a b = true) :=
    (h1.pairwise_iff (fun hab => sameIdSameKey_symm g hab)).2 hkey
  exact (aggregate_permB g hp hsz1 hkey1 initAgg).2 k

/-- A directory holding two distinct files (no hard links). -/
def twoFileTree : Fs :=
  .dir 4096 none (some (.consOk "a.txt" (.file 100 (some 1))
    (.consOk "b.txt" (.file 50 (some 2)) .nil)))

/-- Witness for the amended C3 at a concrete input: over `twoFileTree`,
the canonical arrival order and its reversal return the same total and
the same `txt` group value. -/
theorem C3_value_determinism_amended_witness :
    (aggregate .Extension (walkRoots [(["r"], twoFileTree)])).total =
      (aggregate .Extension
        [Message.sizeEntry (some 2) ["r", "b.txt"] 50,
         Message.sizeEntry (some 1) ["r", "a.txt"] 100]).total ∧
    lookupD (aggregate .Extension
      (walkRoots [(["r"], twoFileTree)])).sizes "txt" =
      lookupD (aggregate .Extension
        [Message.sizeEntry (some 2) ["r", "b.txt"] 50,
         Message.sizeEntry (some 1) ["r", "a.txt"] 100]).sizes "txt" := by
  have h := C3_value_determinism_amended .Extension [(["r"], twoFileTree)]
    (walkRoots [(["r"], twoFileTree)])
    [Message.sizeEntry (some 2) ["r", "b.txt"] 50,
     Message.sizeEntry (some 1) ["r", "a.txt"] 100]
    (List.Perm.refl _) (by decide) (by decide)
  exact ⟨h.1, h.2.2 (by decide) "txt"⟩
